import Mathlib

/-!
Verification of the DesktopMtg semantic-indexing scripts.

Shallow embedding of the Python sources under `src/scripts/`:
* `search_vectordb.py` : `search_cards` (query engine: over-fetch, sort, dedup).
* `build_docv2.py` : `EmbeddingCache.get/set`, `OptimizedSentenceTransformer.encode_with_cache`,
  `validate_embedding_quality`, `generate_embeddings_batch`, `calculate_complexity_score`,
  `EnhancedDocumentProcessor.create_primary_document` and its helpers.

Numeric values that Python holds as floats are modelled as exact rationals; the
embedding model itself is a black-box parameter `String → Vec` as the spec demands.
-/

namespace DesktopMtg

/-- A row returned by the vector store: the fields `search_cards` inspects
(`card['name']` and `card['_distance']`). -/
structure Candidate where
  name : String
  distance : ℚ
deriving DecidableEq, Repr

/-- Ordering used by `raw_results.sort(key=lambda x: x['_distance'])`. -/
def distLe (a b : Candidate) : Prop := a.distance ≤ b.distance

instance : DecidableRel distLe := fun a b => inferInstanceAs (Decidable (a.distance ≤ b.distance))

instance : IsTotal Candidate distLe := ⟨fun a b => le_total a.distance b.distance⟩

instance : IsTrans Candidate distLe := ⟨fun _ _ _ h h' => le_trans h h'⟩

/-- `raw_results.sort(key=lambda x: x['_distance'])` — a stable sort by ascending
distance (Python Timsort; `insertionSort` is likewise stable). -/
def sortByDistance (l : List Candidate) : List Candidate := l.insertionSort distLe

/-- The dedup loop of `search_cards` (lines 47-58 of `search_vectordb.py`):
walk the sorted rows, skip a row whose name was already seen, otherwise keep it,
and break as soon as `limit` unique names have been accumulated.  `seen` is the
`seen_names` set, `count` the current `len(unique_results)`. -/
def dedupGo (limit : Nat) : List String → Nat → List Candidate → List Candidate
  | _, _, [] => []
  | seen, count, c :: rest =>
    if c.name ∈ seen then dedupGo limit seen count rest
    else if limit ≤ count + 1 then [c]
    else c :: dedupGo limit (c.name :: seen) (count + 1) rest

/-- The post-retrieval part of `search_cards`: sort the raw rows by distance,
then deduplicate by name keeping the first occurrence, stopping at `limit`. -/
def searchCardsPost (raw : List Candidate) (limit : Nat) : List Candidate :=
  dedupGo limit [] 0 (sortByDistance raw)

/-- `search_limit = max(limit * 50, 1000000)` (line 40). -/
def searchLimit (limit : Nat) : Nat := max (limit * 50) 1000000

/-- Whole of `search_cards`: the store hands back the `search_limit` nearest rows
(retrieval modelled as exact nearest-neighbour: sort the corpus by distance and
take the first `search_limit`), which are then sorted and deduplicated. -/
def searchCards (corpus : List Candidate) (limit : Nat) : List Candidate :=
  searchCardsPost ((sortByDistance corpus).take (searchLimit limit)) limit

/-- Number of distinct names of `l` that are not already in `seen` (helper for
stating how many unique names a candidate pool contains). -/
def newNames (seen : List String) : List Candidate → Nat
  | [] => 0
  | c :: rest =>
    if c.name ∈ seen then newNames seen rest
    else 1 + newNames (c.name :: seen) rest

/-- Every element kept by the dedup loop has a name outside `seen`. -/
theorem dedupGo_name_not_seen {limit : Nat} {seen : List String} {count : Nat}
    {l : List Candidate} {c : Candidate} (hc : c ∈ dedupGo limit seen count l) :
    c.name ∉ seen := by
  induction l generalizing seen count with
  | nil => simp [dedupGo] at hc
  | cons c₀ rest ih =>
    by_cases h₀ : c₀.name ∈ seen
    · rw [dedupGo, if_pos h₀] at hc
      exact ih hc
    · rw [dedupGo, if_neg h₀] at hc
      by_cases hbr : limit ≤ count + 1
      · rw [if_pos hbr] at hc
        rcases List.mem_singleton.mp hc with rfl
        exact h₀
      · rw [if_neg hbr] at hc
        rcases List.mem_cons.mp hc with rfl | hmem
        · exact h₀
        · intro habs
          exact (ih hmem) (List.mem_cons_of_mem _ habs)

/-- The dedup loop returns a sublist of its input. -/
theorem dedupGo_sublist (limit : Nat) (seen : List String) (count : Nat)
    (l : List Candidate) : (dedupGo limit seen count l).Sublist l := by
  induction l generalizing seen count with
  | nil => simp [dedupGo]
  | cons c₀ rest ih =>
    by_cases h₀ : c₀.name ∈ seen
    · rw [dedupGo, if_pos h₀]
      exact (ih seen count).cons c₀
    · rw [dedupGo, if_neg h₀]
      by_cases hbr : limit ≤ count + 1
      · rw [if_pos hbr]
        exact (List.nil_sublist rest).cons₂ c₀
      · rw [if_neg hbr]
        exact (ih _ _).cons₂ c₀

/-- The names of the rows kept by the dedup loop are pairwise distinct. -/
theorem dedupGo_names_nodup (limit : Nat) (seen : List String) (count : Nat)
    (l : List Candidate) : ((dedupGo limit seen count l).map Candidate.name).Nodup := by
  induction l generalizing seen count with
  | nil => simp [dedupGo]
  | cons c₀ rest ih =>
    by_cases h₀ : c₀.name ∈ seen
    · rw [dedupGo, if_pos h₀]
      exact ih seen count
    · rw [dedupGo, if_neg h₀]
      by_cases hbr : limit ≤ count + 1
      · rw [if_pos hbr]
        simp
      · rw [if_neg hbr]
        refine List.Nodup.cons ?_ (ih _ _)
        intro habs
        rcases List.mem_map.mp habs with ⟨d, hd, hdn⟩
        exact dedupGo_name_not_seen hd (by simp [hdn])

/-- Counting bound for the dedup loop: starting below the limit, at most
`limit - count` rows are kept. -/
theorem dedupGo_length_le (limit : Nat) (seen : List String) (count : Nat)
    (l : List Candidate) (h : count < limit) :
    (dedupGo limit seen count l).length + count ≤ limit := by
  induction l generalizing seen count with
  | nil => simpa [dedupGo] using Nat.le_of_lt h
  | cons c₀ rest ih =>
    by_cases h₀ : c₀.name ∈ seen
    · rw [dedupGo, if_pos h₀]
      exact ih seen count h
    · rw [dedupGo, if_neg h₀]
      by_cases hbr : limit ≤ count + 1
      · rw [if_pos hbr]
        simp only [List.length_singleton]
        omega
      · rw [if_neg hbr]
        have h1 := ih (c₀.name :: seen) (count + 1) (Nat.lt_of_not_le hbr)
        simp only [List.length_cons]
        omega

/-- A row kept by the dedup loop on a sorted list has minimal distance among the
same-named rows of that list. -/
theorem dedupGo_min_dist {limit : Nat} {seen : List String} {count : Nat}
    {l : List Candidate} (hs : l.Sorted distLe) {c : Candidate}
    (hc : c ∈ dedupGo limit seen count l) :
    ∀ c' ∈ l, c'.name = c.name → c.distance ≤ c'.distance := by
  induction l generalizing seen count with
  | nil => simp [dedupGo] at hc
  | cons c₀ rest ih =>
    intro c' hc' hname
    by_cases h₀ : c₀.name ∈ seen
    · rw [dedupGo, if_pos h₀] at hc
      rcases List.mem_cons.mp hc' with rfl | hmem
      · exact absurd (hname ▸ h₀) (dedupGo_name_not_seen hc)
      · exact ih hs.of_cons hc c' hmem hname
    · rw [dedupGo, if_neg h₀] at hc
      by_cases hbr : limit ≤ count + 1
      · rw [if_pos hbr] at hc
        rcases List.mem_singleton.mp hc with rfl
        rcases List.mem_cons.mp hc' with rfl | hmem
        · exact le_refl _
        · exact List.rel_of_sorted_cons hs c' hmem
      · rw [if_neg hbr] at hc
        rcases List.mem_cons.mp hc with rfl | hmem
        · rcases List.mem_cons.mp hc' with rfl | hmem'
          · exact le_refl _
          · exact List.rel_of_sorted_cons hs c' hmem'
        · rcases List.mem_cons.mp hc' with rfl | hmem'
          · exact absurd (hname ▸ List.mem_cons_self _ _)
              (fun hx => dedupGo_name_not_seen hmem hx)
          · exact ih hs.of_cons hmem c' hmem' hname

/-- Exact length of the dedup loop output: within the remaining budget
`limit - count`, one row per new unique name. -/
theorem dedupGo_length_eq (limit : Nat) (seen : List String) (count : Nat)
    (l : List Candidate) (h : count < limit) :
    (dedupGo limit seen count l).length = min (limit - count) (newNames seen l) := by
  induction l generalizing seen count with
  | nil =>
    simp [dedupGo, newNames]
  | cons c₀ rest ih =>
    by_cases h₀ : c₀.name ∈ seen
    · rw [dedupGo, if_pos h₀, newNames, if_pos h₀]
      exact ih seen count h
    · rw [dedupGo, if_neg h₀, newNames, if_neg h₀]
      by_cases hbr : limit ≤ count + 1
      · rw [if_pos hbr]
        have h1 : limit - count = 1 := by omega
        have h2 : 1 ≤ 1 + newNames (c₀.name :: seen) rest := by omega
        simp [h1, Nat.min_eq_left h2]
      · rw [if_neg hbr]
        have h1 := ih (c₀.name :: seen) (count + 1) (Nat.lt_of_not_le hbr)
        simp only [List.length_cons, h1]
        omega

/-- A list already sorted by distance is unchanged by the sorting pass. -/
theorem sortByDistance_eq_of_sorted {l : List Candidate} (h : l.Sorted distLe) :
    sortByDistance l = l :=
  h.insertionSort_eq

/-- Claim C1: for every list of raw search candidates and every limit at least 1,
`search_cards` sorts the candidates by ascending distance and deduplicates by
name, keeping only the first (lowest-distance) row per name and stopping at
`limit` unique names; on `[(Bolt, 0.1), (Bolt, 0.2), (Shock, 0.15)]` with
limit 2 the result is `[Bolt(0.1), Shock(0.15)]`. -/
theorem search_sort_dedup_correct :
    (∀ (raw : List Candidate) (limit : Nat), 1 ≤ limit →
      (searchCardsPost raw limit).Sorted distLe ∧
      ((searchCardsPost raw limit).map Candidate.name).Nodup ∧
      (searchCardsPost raw limit).length ≤ limit ∧
      (∀ c ∈ searchCardsPost raw limit, c ∈ raw ∧
        ∀ c' ∈ raw, c'.name = c.name → c.distance ≤ c'.distance)) ∧
    searchCardsPost [⟨"Bolt", 1/10⟩, ⟨"Bolt", 1/5⟩, ⟨"Shock", 3/20⟩] 2 =
      [⟨"Bolt", 1/10⟩, ⟨"Shock", 3/20⟩] := by
  constructor
  · intro raw limit hlim
    have hsorted : (sortByDistance raw).Sorted distLe :=
      List.sorted_insertionSort distLe raw
    unfold searchCardsPost
    refine ⟨?_, ?_, ?_, ?_⟩
    · exact List.Pairwise.sublist (dedupGo_sublist limit [] 0 (sortByDistance raw)) hsorted
    · exact dedupGo_names_nodup limit [] 0 (sortByDistance raw)
    · have := dedupGo_length_le limit [] 0 (sortByDistance raw) hlim
      omega
    · intro c hc
      have hmem : c ∈ sortByDistance raw :=
        (dedupGo_sublist limit [] 0 (sortByDistance raw)).mem hc
      refine ⟨(List.mem_insertionSort distLe).mp hmem, ?_⟩
      intro c' hc' hname
      exact dedupGo_min_dist hsorted hc c'
        ((List.mem_insertionSort distLe).mpr hc') hname
  · norm_num [searchCardsPost, sortByDistance, dedupGo, distLe,
      List.insertionSort, List.orderedInsert]
    all_goals decide

/-- Witness for C1 at the example input of the spec. -/
theorem search_sort_dedup_correct_witness :
    (searchCardsPost [⟨"Bolt", 1/10⟩, ⟨"Bolt", 1/5⟩, ⟨"Shock", 3/20⟩] 2).length ≤ 2 :=
  (search_sort_dedup_correct.1
    [⟨"Bolt", 1/10⟩, ⟨"Bolt", 1/5⟩, ⟨"Shock", 3/20⟩] 2 (by norm_num)).2.2.1

/-- Skipping a name already seen consumes a whole block of equal rows. -/
theorem dedupGo_replicate_seen (limit : Nat) (seen : List String) (count : Nat)
    (c : Candidate) (h : c.name ∈ seen) :
    ∀ n, dedupGo limit seen count (List.replicate n c) = [] := by
  intro n
  induction n with
  | zero => simp [dedupGo]
  | succ n ih => rw [List.replicate_succ, dedupGo, if_pos h, ih]

/-- A block of rows whose name is already seen contributes no new names. -/
theorem newNames_replicate_seen (seen : List String) (c : Candidate)
    (h : c.name ∈ seen) (rest : List Candidate) :
    ∀ n, newNames seen (List.replicate n c ++ rest) = newNames seen rest := by
  intro n
  induction n with
  | zero => simp
  | succ n ih => rw [List.replicate_succ, List.cons_append, newNames, if_pos h, ih]

/-- Claim C2 (amended): the candidate pool is the fixed over-fetch of
`max(limit * 50, 1000000)` nearest rows; the number of returned results equals
`min limit (number of unique names inside that fixed pool)` — there is no
dynamic expansion beyond the pool. -/
theorem searchCards_length_eq (corpus : List Candidate) (limit : Nat)
    (h : 1 ≤ limit) :
    (searchCards corpus limit).length =
      min limit (newNames [] ((sortByDistance corpus).take (searchLimit limit))) := by
  unfold searchCards searchCardsPost
  have hpool : ((sortByDistance corpus).take (searchLimit limit)).Sorted distLe :=
    List.Pairwise.sublist (List.take_sublist _ _) (List.sorted_insertionSort distLe corpus)
  rw [sortByDistance_eq_of_sorted hpool]
  simpa using dedupGo_length_eq limit [] 0 _ h

/-- Witness for the amended C2 on a one-element corpus. -/
theorem searchCards_length_eq_witness :
    (searchCards [⟨"Bolt", 1/10⟩] 1).length = 1 := by
  have h := searchCards_length_eq [⟨"Bolt", 1/10⟩] 1 (by norm_num)
  rw [h]
  decide

/-- A corpus larger than the fixed pool: a million rows named "A" at distance 1
followed by one row named "B" at distance 2. -/
def bigCorpus : List Candidate :=
  List.replicate 1000000 ⟨"A", 1⟩ ++ [⟨"B", 2⟩]

/-- Counterexample to C2 as stated: `bigCorpus` holds 2 unique names and the
pool (the top 1000000 rows) holds only 1, yet `search_cards` with limit 2
returns a single result instead of expanding the pool to the full corpus. -/
theorem searchCards_no_expansion_counterexample :
    (searchCards bigCorpus 2).length = 1 ∧
    newNames [] ((sortByDistance bigCorpus).take (searchLimit 2)) = 1 ∧
    newNames [] bigCorpus = 2 := by
  have hsorted : bigCorpus.Sorted distLe := by
    rw [bigCorpus, List.Sorted, List.pairwise_append]
    refine ⟨List.pairwise_replicate.mpr (Or.inr (le_refl _)), by simp, ?_⟩
    intro a ha b hb
    rw [List.eq_of_mem_replicate ha, List.mem_singleton.mp hb]
    show (1 : ℚ) ≤ 2
    norm_num
  have hsortid : sortByDistance bigCorpus = bigCorpus :=
    sortByDistance_eq_of_sorted hsorted
  have hK : searchLimit 2 = 1000000 := by decide
  have hlen : (List.replicate 1000000 (⟨"A", 1⟩ : Candidate)).length = 1000000 :=
    List.length_replicate _ _
  have htake : bigCorpus.take 1000000 = List.replicate 1000000 ⟨"A", 1⟩ := by
    have h := List.take_left (List.replicate 1000000 (⟨"A", 1⟩ : Candidate))
      [(⟨"B", 2⟩ : Candidate)]
    rw [hlen] at h
    rw [bigCorpus]
    exact h
  have hpoolsorted : (List.replicate 1000000 (⟨"A", 1⟩ : Candidate)).Sorted distLe :=
    List.pairwise_replicate.mpr (Or.inr (le_refl _))
  have hpool : (sortByDistance bigCorpus).take (searchLimit 2) =
      List.replicate 1000000 ⟨"A", 1⟩ := by
    rw [hsortid, hK, htake]
  have hsplit : (1000000 : Nat) = 999999 + 1 := by norm_num
  have hdedup : dedupGo 2 [] 0 (List.replicate 1000000 (⟨"A", 1⟩ : Candidate)) =
      [⟨"A", 1⟩] := by
    rw [hsplit, List.replicate_succ, dedupGo]
    rw [if_neg (List.not_mem_nil _)]
    rw [if_neg (by omega : ¬ (2 ≤ 0 + 1))]
    rw [dedupGo_replicate_seen 2 _ 1 ⟨"A", 1⟩ (List.mem_cons_self _ _) 999999]
  have hnames : newNames [] (List.replicate 1000000 (⟨"A", 1⟩ : Candidate)) = 1 := by
    rw [hsplit, List.replicate_succ, newNames]
    rw [if_neg (List.not_mem_nil _)]
    have h9 := newNames_replicate_seen ((⟨"A", 1⟩ : Candidate).name :: [])
      ⟨"A", 1⟩ (List.mem_cons_self _ _) [] 999999
    rw [List.append_nil] at h9
    rw [h9]
    rfl
  refine ⟨?_, ?_, ?_⟩
  · unfold searchCards searchCardsPost
    rw [hpool, sortByDistance_eq_of_sorted hpoolsorted, hdedup]
    rfl
  · rw [hpool, hnames]
  · rw [bigCorpus, hsplit, List.replicate_succ, List.cons_append, newNames]
    rw [if_neg (List.not_mem_nil _)]
    rw [newNames_replicate_seen ((⟨"A", 1⟩ : Candidate).name :: [])
      ⟨"A", 1⟩ (List.mem_cons_self _ _) [⟨"B", 2⟩] 999999]
    rw [newNames]
    rw [if_neg (by decide : ((⟨"B", 2⟩ : Candidate).name ∈
      (⟨"A", 1⟩ : Candidate).name :: []) → False)]
    rfl

/-! ## Embedding cache (`EmbeddingCache` of `build_docv2.py`, lines 874-949)

The cache directory is a finite map from cache-key file names to stored blobs.
`_get_cache_key` hashes `f"{model_name}:{embedding_type}:{text}"` with sha256;
the hash is modelled by the content string itself (an injective stand-in).
A stored blob that fails to unpickle on read is modelled as `none`. -/

/-- An embedding vector (numpy array of floats, modelled exactly). -/
abbrev Vec := List ℚ

/-- The cache directory plus the `cache_stats` counters. -/
structure CacheState where
  entries : List (String × Option Vec)
  hits : Nat
  misses : Nat
  saves : Nat
deriving DecidableEq, Repr

/-- `_get_cache_key`: content-addressed key over model id, view type and text. -/
def cacheKey (text modelName embeddingType : String) : String :=
  modelName ++ ":" ++ embeddingType ++ ":" ++ text

/-- Look a key up in the cache directory (`cache_path.exists()` plus the read). -/
def lookupEntry (es : List (String × Option Vec)) (k : String) : Option (Option Vec) :=
  (es.find? (fun p => p.1 = k)).map Prod.snd

/-- `cache_path.unlink()`: remove the file named `k`. -/
def eraseEntry (es : List (String × Option Vec)) (k : String) : List (String × Option Vec) :=
  es.filter (fun p => p.1 ≠ k)

/-- Write the file named `k` (open with mode "wb" truncates, so an existing
entry is overwritten in place; a fresh key is created). -/
def setEntry (es : List (String × Option Vec)) (k : String) (v : Vec) :
    List (String × Option Vec) :=
  if es.any (fun p => p.1 = k) then
    es.map (fun p => if p.1 = k then (k, some v) else p)
  else es ++ [(k, some v)]

/-- `EmbeddingCache.get`: hit on a readable entry; a corrupt entry is unlinked
and falls through to the miss path; a missing entry is a miss. -/
def cacheGet (st : CacheState) (text modelName embeddingType : String) :
    Option Vec × CacheState :=
  match lookupEntry st.entries (cacheKey text modelName embeddingType) with
  | some (some v) => (some v, ⟨st.entries, st.hits + 1, st.misses, st.saves⟩)
  | some none =>
    (none, ⟨eraseEntry st.entries (cacheKey text modelName embeddingType),
      st.hits, st.misses + 1, st.saves⟩)
  | none => (none, ⟨st.entries, st.hits, st.misses + 1, st.saves⟩)

/-- `EmbeddingCache.set`: pickle the vector into the key file (unconditional
write) and count the save. -/
def cacheSet (st : CacheState) (text modelName embeddingType : String) (v : Vec) :
    CacheState :=
  ⟨setEntry st.entries (cacheKey text modelName embeddingType) v,
    st.hits, st.misses, st.saves + 1⟩

/-- One step of `lookupEntry`. -/
theorem lookupEntry_cons (q : String × Option Vec) (es : List (String × Option Vec))
    (k : String) :
    lookupEntry (q :: es) k = if q.1 = k then some q.2 else lookupEntry es k := by
  unfold lookupEntry
  by_cases hq : q.1 = k
  · rw [List.find?_cons_of_pos _ (by simpa using hq), if_pos hq]
    rfl
  · rw [List.find?_cons_of_neg _ (by simpa using hq), if_neg hq]

/-- The in-place overwrite pass finds the new vector at the overwritten key. -/
theorem lookup_overwrite_self (k : String) (v : Vec) :
    ∀ es : List (String × Option Vec), es.any (fun p => p.1 = k) →
      lookupEntry (es.map (fun p => if p.1 = k then (k, some v) else p)) k =
        some (some v) := by
  intro es
  induction es with
  | nil => intro h; simp at h
  | cons q es ih =>
    intro h
    simp only [List.map_cons]
    by_cases hq : q.1 = k
    · rw [if_pos hq, lookupEntry_cons]
      simp
    · rw [if_neg hq, lookupEntry_cons, if_neg hq]
      refine ih ?_
      rcases List.any_eq_true.mp h with ⟨p, hp, hpk⟩
      rcases List.mem_cons.mp hp with rfl | hp'
      · exact absurd (of_decide_eq_true hpk) hq
      · exact List.any_eq_true.mpr ⟨p, hp', hpk⟩

/-- The in-place overwrite pass leaves every other key alone. -/
theorem lookup_overwrite_ne (k k' : String) (v : Vec) (hne : k' ≠ k) :
    ∀ es : List (String × Option Vec),
      lookupEntry (es.map (fun p => if p.1 = k then (k, some v) else p)) k' =
        lookupEntry es k' := by
  intro es
  induction es with
  | nil => rfl
  | cons q es ih =>
    simp only [List.map_cons]
    by_cases hq : q.1 = k
    · have hq' : ¬ q.1 = k' := by
        rw [hq]
        exact Ne.symm hne
      rw [if_pos hq, lookupEntry_cons, lookupEntry_cons,
        if_neg (show ¬ ((k, some v).1 = k') from Ne.symm hne), if_neg hq', ih]
    · rw [if_neg hq, lookupEntry_cons, lookupEntry_cons]
      by_cases hq' : q.1 = k'
      · rw [if_pos hq', if_pos hq']
      · rw [if_neg hq', if_neg hq', ih]

/-- Appending a fresh entry does not disturb lookups at other keys. -/
theorem lookup_append_ne (k k' : String) (v : Vec) (hne : k' ≠ k) :
    ∀ es : List (String × Option Vec),
      lookupEntry (es ++ [(k, some v)]) k' = lookupEntry es k' := by
  intro es
  induction es with
  | nil =>
    rw [List.nil_append, lookupEntry_cons,
      if_neg (show ¬ ((k, some v).1 = k') from Ne.symm hne)]
  | cons q es ih =>
    rw [List.cons_append, lookupEntry_cons, lookupEntry_cons]
    by_cases hq' : q.1 = k'
    · rw [if_pos hq', if_pos hq']
    · rw [if_neg hq', if_neg hq', ih]

/-- Looking up the key just written finds the new vector. -/
theorem lookupEntry_setEntry_self (es : List (String × Option Vec)) (k : String)
    (v : Vec) : lookupEntry (setEntry es k v) k = some (some v) := by
  unfold setEntry
  by_cases hk : es.any (fun p => p.1 = k)
  · rw [if_pos hk]
    exact lookup_overwrite_self k v es hk
  · rw [if_neg hk]
    induction es with
    | nil =>
      rw [List.nil_append, lookupEntry_cons, if_pos rfl]
    | cons q es ih =>
      have hq : ¬ q.1 = k := fun habs =>
        hk (List.any_eq_true.mpr ⟨q, List.mem_cons_self _ _, decide_eq_true habs⟩)
      rw [List.cons_append, lookupEntry_cons, if_neg hq]
      exact ih (fun habs => by
        rcases List.any_eq_true.mp habs with ⟨p, hp, hpk⟩
        exact hk (List.any_eq_true.mpr ⟨p, List.mem_cons_of_mem _ hp, hpk⟩))

/-- Keys other than the one written are untouched by a write. -/
theorem lookupEntry_setEntry_ne (es : List (String × Option Vec)) (k k' : String)
    (v : Vec) (hne : k' ≠ k) : lookupEntry (setEntry es k v) k' = lookupEntry es k' := by
  unfold setEntry
  by_cases hk : es.any (fun p => p.1 = k)
  · rw [if_pos hk]
    exact lookup_overwrite_ne k k' v hne es
  · rw [if_neg hk]
    exact lookup_append_ne k k' v hne es

/-- Mapping a function that fixes every element is the identity. -/
theorem map_id_of_fixed {α : Type} (f : α → α) :
    ∀ (l : List α), (∀ x ∈ l, f x = x) → l.map f = l := by
  intro l h
  induction l with
  | nil => rfl
  | cons a l ih =>
    rw [List.map_cons, h a (List.mem_cons_self _ _), ih (fun x hx => h x (List.mem_cons_of_mem _ hx))]

/-- Writing the same vector to the same key twice is the same as writing once. -/
theorem setEntry_idem (es : List (String × Option Vec)) (k : String) (v : Vec) :
    setEntry (setEntry es k v) k v = setEntry es k v := by
  have hmem : (setEntry es k v).any (fun p => p.1 = k) = true := by
    unfold setEntry
    by_cases hk : es.any (fun p => p.1 = k)
    · rw [if_pos hk]
      rcases List.any_eq_true.mp hk with ⟨p, hp, hpk⟩
      have hpk' : p.1 = k := of_decide_eq_true hpk
      exact List.any_eq_true.mpr
        ⟨(k, some v), List.mem_map.mpr ⟨p, hp, by simp [hpk']⟩, by simp⟩
    · rw [if_neg hk]
      exact List.any_eq_true.mpr
        ⟨(k, some v), List.mem_append_right _ (List.mem_singleton_self _), by simp⟩
  have hfix : ∀ p ∈ setEntry es k v, p.1 = k → p.2 = some v := by
    unfold setEntry
    by_cases hk : es.any (fun p => p.1 = k)
    · rw [if_pos hk]
      intro p hp hpk
      rcases List.mem_map.mp hp with ⟨q, _, hq⟩
      by_cases hq1 : q.1 = k
      · rw [if_pos hq1] at hq
        rw [← hq]
      · rw [if_neg hq1] at hq
        exact absurd (hq ▸ hpk) hq1
    · rw [if_neg hk]
      intro p hp hpk
      rcases List.mem_append.mp hp with hp' | hp'
      · exact absurd (List.any_eq_true.mpr ⟨p, hp', decide_eq_true hpk⟩) hk
      · rw [List.mem_singleton.mp hp']
  conv_lhs => rw [setEntry, if_pos hmem]
  exact map_id_of_fixed _ _ (fun p hp => by
    by_cases hpk : p.1 = k
    · rw [if_pos hpk]
      have := hfix p hp hpk
      rw [Prod.ext_iff]
      exact ⟨hpk.symm, this.symm⟩
    · rw [if_neg hpk])

/-- One step of `eraseEntry`. -/
theorem eraseEntry_cons (q : String × Option Vec) (es : List (String × Option Vec))
    (k : String) : eraseEntry (q :: es) k =
    if q.1 = k then eraseEntry es k else q :: eraseEntry es k := by
  unfold eraseEntry
  by_cases hq : q.1 = k
  · rw [if_pos hq]
    simp [List.filter_cons, hq]
  · rw [if_neg hq]
    simp [List.filter_cons, hq]

/-- After unlinking a key it can no longer be found. -/
theorem lookupEntry_eraseEntry_self (k : String) :
    ∀ es : List (String × Option Vec), lookupEntry (eraseEntry es k) k = none := by
  intro es
  induction es with
  | nil => rfl
  | cons q es ih =>
    rw [eraseEntry_cons]
    by_cases hq : q.1 = k
    · rw [if_pos hq]
      exact ih
    · rw [if_neg hq, lookupEntry_cons, if_neg hq]
      exact ih

/-- Unlinking one key leaves every other key alone. -/
theorem lookupEntry_eraseEntry_ne (k k' : String) (hne : k' ≠ k) :
    ∀ es : List (String × Option Vec),
      lookupEntry (eraseEntry es k) k' = lookupEntry es k' := by
  intro es
  induction es with
  | nil => rfl
  | cons q es ih =>
    rw [eraseEntry_cons, lookupEntry_cons]
    by_cases hq : q.1 = k
    · have hq' : ¬ q.1 = k' := by
        rw [hq]
        exact Ne.symm hne
      rw [if_pos hq, if_neg hq', ih]
    · rw [if_neg hq, lookupEntry_cons, ih]

/-- Claim C6 (amended): `EmbeddingCache.set` always writes: afterwards the key
maps to the newly supplied vector (so a write of a differing vector replaces the
stored value rather than being a no-op), other keys are untouched, re-writing
the identical vector is idempotent on the store, the save counter is bumped,
and no error is raised (the function is total). -/
theorem cacheSet_overwrite_semantics (st : CacheState)
    (text modelName embeddingType : String) (v : Vec) :
    lookupEntry (cacheSet st text modelName embeddingType v).entries
        (cacheKey text modelName embeddingType) = some (some v) ∧
    (∀ k', k' ≠ cacheKey text modelName embeddingType →
      lookupEntry (cacheSet st text modelName embeddingType v).entries k' =
        lookupEntry st.entries k') ∧
    (cacheSet (cacheSet st text modelName embeddingType v)
        text modelName embeddingType v).entries =
      (cacheSet st text modelName embeddingType v).entries ∧
    (cacheSet st text modelName embeddingType v).saves = st.saves + 1 := by
  refine ⟨lookupEntry_setEntry_self _ _ _,
    fun k' h => lookupEntry_setEntry_ne _ _ _ _ h, ?_, rfl⟩
  exact setEntry_idem _ _ _

/-- Witness for the amended C6: a write into the empty cache leaves an unrelated
key unmapped. -/
theorem cacheSet_overwrite_semantics_witness :
    lookupEntry (cacheSet ⟨[], 0, 0, 0⟩ "t" "m" "primary" [1]).entries "other" =
      lookupEntry ([] : List (String × Option Vec)) "other" :=
  (cacheSet_overwrite_semantics ⟨[], 0, 0, 0⟩ "t" "m" "primary" [1]).2.1 "other"
    (by decide)

/-- Counterexample to C6 as stated: on a cache holding vector `[1]` under a key,
a second `set` with the differing vector `[2]` changes the stored value (the
entry list changes and the key now yields `[2]`), so the write is not a no-op. -/
theorem cacheSet_not_noop_counterexample :
    (cacheSet ⟨[(cacheKey "t" "m" "primary", some [1])], 0, 0, 0⟩
        "t" "m" "primary" [2]).entries ≠
      [(cacheKey "t" "m" "primary", some [1])] ∧
    lookupEntry (cacheSet ⟨[(cacheKey "t" "m" "primary", some [1])], 0, 0, 0⟩
        "t" "m" "primary" [2]).entries (cacheKey "t" "m" "primary") =
      some (some [2]) := by
  have h1 : lookupEntry (cacheSet
      (⟨[(cacheKey "t" "m" "primary", some [1])], 0, 0, 0⟩ : CacheState)
      "t" "m" "primary" [2]).entries (cacheKey "t" "m" "primary") = some (some [2]) :=
    lookupEntry_setEntry_self [(cacheKey "t" "m" "primary", some [1])]
      (cacheKey "t" "m" "primary") [2]
  refine ⟨?_, h1⟩
  intro habs
  rw [habs, lookupEntry_cons, if_pos rfl] at h1
  simp only [Option.some.injEq, List.cons.injEq] at h1
  exact absurd h1.1 (by norm_num)

/-- Claim C7: `EmbeddingCache.get` on a corrupt (undeserialisable) entry acts as
a miss: it returns nothing, removes the bad entry, increments the miss counter,
keeps the hit counter and every other key intact, and propagates no error. -/
theorem cacheGet_corrupt_is_miss (st : CacheState)
    (text modelName embeddingType : String)
    (h : lookupEntry st.entries (cacheKey text modelName embeddingType) = some none) :
    (cacheGet st text modelName embeddingType).1 = none ∧
    lookupEntry (cacheGet st text modelName embeddingType).2.entries
      (cacheKey text modelName embeddingType) = none ∧
    (∀ k', k' ≠ cacheKey text modelName embeddingType →
      lookupEntry (cacheGet st text modelName embeddingType).2.entries k' =
        lookupEntry st.entries k') ∧
    (cacheGet st text modelName embeddingType).2.misses = st.misses + 1 ∧
    (cacheGet st text modelName embeddingType).2.hits = st.hits := by
  simp only [cacheGet, h]
  exact ⟨by trivial, lookupEntry_eraseEntry_self _ _,
    fun k' hk' => lookupEntry_eraseEntry_ne _ _ hk' _, by trivial, by trivial⟩

/-- Witness for C7 on a one-entry cache holding a corrupt blob. -/
theorem cacheGet_corrupt_is_miss_witness :
    (cacheGet ⟨[(cacheKey "t" "m" "primary", none)], 0, 0, 0⟩ "t" "m" "primary").1 =
      none :=
  (cacheGet_corrupt_is_miss ⟨[(cacheKey "t" "m" "primary", none)], 0, 0, 0⟩
    "t" "m" "primary" (by decide)).1

/-! ## encode_with_cache (`OptimizedSentenceTransformer`, lines 979-1030)

The first loop looks every text up in the cache, keeping hits as
`(index, vector)` pairs (`cached_embeddings`) and misses as the parallel lists
`texts_to_encode` / `cache_indices`.  The model is the black-box
`encode : String → Vec` of the spec, applied to each missed text.  The result
list starts as `[None] * len(texts)` and both groups are written back at their
recorded indices.  The cache writes for fresh vectors do not affect the
returned batch and are not modelled here (writes are modelled with `cacheSet`
above). -/

/-- The hit/miss splitting loop of `encode_with_cache`, with `i` the index of
the first text of `ts` within the original list. -/
def cacheScan (cacheF : String → Option Vec) :
    Nat → List String → List (Nat × Vec) × List String × List Nat
  | _, [] => ([], [], [])
  | i, t :: ts =>
    match cacheF t with
    | some v => ((i, v) :: (cacheScan cacheF (i + 1) ts).1,
        (cacheScan cacheF (i + 1) ts).2.1, (cacheScan cacheF (i + 1) ts).2.2)
    | none => ((cacheScan cacheF (i + 1) ts).1,
        t :: (cacheScan cacheF (i + 1) ts).2.1, i :: (cacheScan cacheF (i + 1) ts).2.2)

/-- Write each `(index, vector)` pair into the result list
(`result[i] = embedding`). -/
def placeAll (res : List (Option Vec)) (l : List (Nat × Vec)) : List (Option Vec) :=
  l.foldl (fun r p => r.set p.1 (some p.2)) res

/-- `encode_with_cache`: split into hits and misses, encode the missed texts,
and reassemble the batch by position. -/
def encodeWithCache (cacheF : String → Option Vec) (encode : String → Vec)
    (texts : List String) : List (Option Vec) :=
  placeAll
    (placeAll (List.replicate texts.length none) (cacheScan cacheF 0 texts).1)
    ((cacheScan cacheF 0 texts).2.2.zip ((cacheScan cacheF 0 texts).2.1.map encode))

/-- Writing assignments never changes the length of the result list. -/
theorem placeAll_length (l : List (Nat × Vec)) :
    ∀ res : List (Option Vec), (placeAll res l).length = res.length := by
  induction l with
  | nil => intro res; rfl
  | cons p l ih =>
    intro res
    show (placeAll (res.set p.1 (some p.2)) l).length = res.length
    rw [ih, List.length_set]

/-- A position not named by any assignment keeps its previous value. -/
theorem placeAll_not_mem (l : List (Nat × Vec)) (i : Nat)
    (h : i ∉ l.map Prod.fst) :
    ∀ res : List (Option Vec), (placeAll res l)[i]? = res[i]? := by
  induction l with
  | nil => intro res; rfl
  | cons p l ih =>
    intro res
    have hi : p.1 ≠ i := fun habs =>
      h (by rw [List.map_cons, habs]; exact List.mem_cons_self _ _)
    have hrest : i ∉ l.map Prod.fst := fun habs =>
      h (by rw [List.map_cons]; exact List.mem_cons_of_mem _ habs)
    show (placeAll (res.set p.1 (some p.2)) l)[i]? = res[i]?
    rw [ih hrest, List.getElem?_set_ne hi]

/-- A position assigned exactly once receives its assigned vector. -/
theorem placeAll_mem (l : List (Nat × Vec)) (i : Nat) (v : Vec) :
    ∀ res : List (Option Vec), (i, v) ∈ l → (l.map Prod.fst).Nodup →
      i < res.length → (placeAll res l)[i]? = some (some v) := by
  induction l with
  | nil => intro res h; simp at h
  | cons p l ih =>
    intro res hmem hnodup hlt
    rw [List.map_cons, List.nodup_cons] at hnodup
    rcases List.mem_cons.mp hmem with heq | hmem'
    · have hi : p.1 = i := by rw [← heq]
      have hfst : i ∉ l.map Prod.fst := hi ▸ hnodup.1
      show (placeAll (res.set p.1 (some p.2)) l)[i]? = some (some v)
      rw [placeAll_not_mem l i hfst, ← heq, List.getElem?_set_self (by simpa using hlt)]
    · show (placeAll (res.set p.1 (some p.2)) l)[i]? = some (some v)
      exact ih _ hmem' hnodup.2 (by rw [List.length_set]; exact hlt)

/-- The missed texts and their indices stay in lockstep. -/
theorem cacheScan_lengths (cacheF : String → Option Vec) :
    ∀ (ts : List String) (i : Nat),
      (cacheScan cacheF i ts).2.2.length = (cacheScan cacheF i ts).2.1.length := by
  intro ts
  induction ts with
  | nil => intro i; rfl
  | cons t ts ih =>
    intro i
    cases hcf : cacheF t with
    | some v => simp only [cacheScan, hcf]; exact ih (i + 1)
    | none => simp only [cacheScan, hcf, List.length_cons]; rw [ih (i + 1)]

/-- Every recorded index lies in the window `[i, i + ts.length)`. -/
theorem cacheScan_index_range (cacheF : String → Option Vec) :
    ∀ (ts : List String) (i j : Nat),
      j ∈ (cacheScan cacheF i ts).1.map Prod.fst ++ (cacheScan cacheF i ts).2.2 →
      i ≤ j ∧ j < i + ts.length := by
  intro ts
  induction ts with
  | nil => intro i j h; simp [cacheScan] at h
  | cons t ts ih =>
    intro i j h
    cases hcf : cacheF t with
    | some v =>
      simp only [cacheScan, hcf, List.map_cons, List.cons_append] at h
      rcases List.mem_cons.mp h with rfl | h'
      · simp
      · have := ih (i + 1) j h'
        constructor <;> [omega; (simp only [List.length_cons]; omega)]
    | none =>
      simp only [cacheScan, hcf] at h
      rcases List.mem_append.mp h with h' | h'
      · have := ih (i + 1) j (List.mem_append_left _ h')
        constructor <;> [omega; (simp only [List.length_cons]; omega)]
      · rcases List.mem_cons.mp h' with rfl | h''
        · simp
        · have := ih (i + 1) j (List.mem_append_right _ h'')
          constructor <;> [omega; (simp only [List.length_cons]; omega)]

/-- Hit indices and miss indices are jointly free of duplicates. -/
theorem cacheScan_indices_nodup (cacheF : String → Option Vec) :
    ∀ (ts : List String) (i : Nat),
      ((cacheScan cacheF i ts).1.map Prod.fst ++ (cacheScan cacheF i ts).2.2).Nodup := by
  intro ts
  induction ts with
  | nil => intro i; simp [cacheScan]
  | cons t ts ih =>
    intro i
    have hfresh : i ∉ (cacheScan cacheF (i + 1) ts).1.map Prod.fst ++
        (cacheScan cacheF (i + 1) ts).2.2 := by
      intro habs
      have := cacheScan_index_range cacheF ts (i + 1) i habs
      omega
    cases hcf : cacheF t with
    | some v =>
      simp only [cacheScan, hcf, List.map_cons, List.cons_append]
      exact List.Nodup.cons hfresh (ih (i + 1))
    | none =>
      simp only [cacheScan, hcf]
      rw [List.nodup_middle]
      exact List.Nodup.cons hfresh (ih (i + 1))

/-- Coverage of cache hits: a text cached as `v` yields the assignment
`(index, v)` among the hit assignments. -/
theorem cacheScan_hit_mem (cacheF : String → Option Vec) :
    ∀ (ts : List String) (i j : Nat) (h : j < ts.length) (v : Vec),
      cacheF (ts.get ⟨j, h⟩) = some v → (i + j, v) ∈ (cacheScan cacheF i ts).1 := by
  intro ts
  induction ts with
  | nil => intro i j h; exact absurd h (by simp)
  | cons t ts ih =>
    intro i j h v hv
    cases j with
    | zero =>
      simp only [List.get] at hv
      simp only [cacheScan, hv, Nat.add_zero]
      exact List.mem_cons_self _ _
    | succ j' =>
      have hlt : j' < ts.length := by simpa using h
      have hv' : cacheF (ts.get ⟨j', hlt⟩) = some v := hv
      have hmem := ih (i + 1) j' hlt v hv'
      have harith : i + 1 + j' = i + (j' + 1) := by omega
      cases hcf : cacheF t with
      | some w =>
        simp only [cacheScan, hcf]
        exact List.mem_cons_of_mem _ (harith ▸ hmem)
      | none =>
        simp only [cacheScan, hcf]
        exact harith ▸ hmem

/-- Coverage of cache misses: an uncached text yields the assignment
`(index, encode text)` among the fresh assignments. -/
theorem cacheScan_miss_mem (cacheF : String → Option Vec) (encode : String → Vec) :
    ∀ (ts : List String) (i j : Nat) (h : j < ts.length),
      cacheF (ts.get ⟨j, h⟩) = none →
      (i + j, encode (ts.get ⟨j, h⟩)) ∈
        (cacheScan cacheF i ts).2.2.zip ((cacheScan cacheF i ts).2.1.map encode) := by
  intro ts
  induction ts with
  | nil => intro i j h; exact absurd h (by simp)
  | cons t ts ih =>
    intro i j h hv
    cases j with
    | zero =>
      simp only [List.get] at hv ⊢
      simp only [cacheScan, hv, Nat.add_zero, List.map_cons, List.zip_cons_cons]
      exact List.mem_cons_self _ _
    | succ j' =>
      have hlt : j' < ts.length := by simpa using h
      have hv' : cacheF (ts.get ⟨j', hlt⟩) = none := hv
      have hmem := ih (i + 1) j' hlt hv'
      have harith : i + 1 + j' = i + (j' + 1) := by omega
      cases hcf : cacheF t with
      | some w =>
        simp only [cacheScan, hcf]
        exact harith ▸ hmem
      | none =>
        simp only [cacheScan, hcf, List.map_cons, List.zip_cons_cons]
        exact List.mem_cons_of_mem _ (harith ▸ hmem)

/-- Claim C3: `encode_with_cache` returns a batch of the same length as the
input texts, and the vector at position `i` is the embedding of text `i` —
the cached vector on a hit, the freshly computed one on a miss; no position is
left unfilled. -/
theorem encodeWithCache_positional (cacheF : String → Option Vec)
    (encode : String → Vec) (texts : List String) :
    (encodeWithCache cacheF encode texts).length = texts.length ∧
    ∀ (i : Nat) (h : i < texts.length),
      (encodeWithCache cacheF encode texts)[i]? =
        some (some ((cacheF (texts.get ⟨i, h⟩)).getD (encode (texts.get ⟨i, h⟩)))) := by
  constructor
  · unfold encodeWithCache
    rw [placeAll_length, placeAll_length, List.length_replicate]
  · intro i h
    have hnodup := cacheScan_indices_nodup cacheF texts 0
    have hfstzip : ((cacheScan cacheF 0 texts).2.2.zip
        ((cacheScan cacheF 0 texts).2.1.map encode)).map Prod.fst =
        (cacheScan cacheF 0 texts).2.2 :=
      List.map_fst_zip _ _ (by rw [List.length_map, cacheScan_lengths])
    have hsplit := List.nodup_append.mp hnodup
    unfold encodeWithCache
    cases hcf : cacheF (texts.get ⟨i, h⟩) with
    | some v =>
      have hhit := cacheScan_hit_mem cacheF texts 0 i h v hcf
      rw [Nat.zero_add] at hhit
      have hmemfst : i ∈ (cacheScan cacheF 0 texts).1.map Prod.fst :=
        List.mem_map.mpr ⟨(i, v), hhit, rfl⟩
      have hnotzip : i ∉ ((cacheScan cacheF 0 texts).2.2.zip
          ((cacheScan cacheF 0 texts).2.1.map encode)).map Prod.fst := by
        rw [hfstzip]
        exact hsplit.2.2 hmemfst
      rw [placeAll_not_mem _ i hnotzip,
        placeAll_mem _ i v _ hhit hsplit.1 (by rw [List.length_replicate]; exact h)]
      rfl
    | none =>
      have hmiss := cacheScan_miss_mem cacheF encode texts 0 i h hcf
      rw [Nat.zero_add] at hmiss
      have hzipnodup : (((cacheScan cacheF 0 texts).2.2.zip
          ((cacheScan cacheF 0 texts).2.1.map encode)).map Prod.fst).Nodup := by
        rw [hfstzip]
        exact hsplit.2.1
      rw [placeAll_mem _ i (encode (texts.get ⟨i, h⟩)) _ hmiss hzipnodup
        (by rw [placeAll_length, List.length_replicate]; exact h)]
      rfl

/-- Witness for C3 on a two-text batch with one hit and one miss. -/
theorem encodeWithCache_positional_witness :
    (encodeWithCache (fun t => if t = "a" then some [5] else none)
        (fun _ => [7]) ["a", "b"])[1]? = some (some [7]) := by
  have h := (encodeWithCache_positional (fun t => if t = "a" then some [5] else none)
    (fun _ => [7]) ["a", "b"]).2 1 (by norm_num)
  simpa using h

/-! ## generate_embeddings_batch (`build_docv2.py`, lines 1163-1213) -/

/-- `np.zeros(384)` — the fallback zero-vector (`fallback_dim = 384`). -/
def zeroVec : Vec := List.replicate 384 0

/-- The batch loop of `generate_embeddings_batch`.  `n` is the 1-based batch
number, `bs` the batch size; `fails n` reports whether `model.encode` raises on
batch `n` (the failure oracle).  A successful batch embeds each of its
documents through the black-box model; a failing batch appends one
`np.zeros(384)` per document, and the loop continues with the next batch. -/
def genBatchesGo (encode : String → Vec) (fails : Nat → Bool) (bs : Nat) :
    Nat → List String → List Vec
  | _, [] => []
  | n, d :: ds =>
    (if fails n then ((d :: ds).take bs).map (fun _ => zeroVec)
     else ((d :: ds).take bs).map encode) ++
      genBatchesGo encode fails bs (n + 1) (ds.drop (bs - 1))
termination_by _ ds => ds.length
decreasing_by simp only [List.length_drop, List.length_cons]; omega

/-- `generate_embeddings_batch`: early return on an empty document list;
otherwise process the documents in batches of `bs` starting at batch 1. -/
def generateEmbeddingsBatch (encode : String → Vec) (fails : Nat → Bool)
    (documents : List String) (bs : Nat) : List Vec :=
  if documents.isEmpty then [] else genBatchesGo encode fails bs 1 documents

/-- The batch loop emits exactly one vector per document. -/
theorem genBatchesGo_length (encode : String → Vec) (fails : Nat → Bool)
    (bs : Nat) (hbs : 1 ≤ bs) :
    ∀ (k : Nat) (ds : List String), ds.length ≤ k → ∀ (n : Nat),
      (genBatchesGo encode fails bs n ds).length = ds.length := by
  intro k
  induction k with
  | zero =>
    intro ds hk n
    rw [List.length_eq_zero.mp (Nat.le_zero.mp hk)]
    simp [genBatchesGo]
  | succ k ih =>
    intro ds hk n
    match ds with
    | [] => simp [genBatchesGo]
    | d :: ds' =>
      rw [genBatchesGo.eq_2, List.length_append]
      have hrec := ih (ds'.drop (bs - 1))
        (by simp only [List.length_drop]; simp at hk; omega) (n + 1)
      rw [hrec]
      cases hf : fails n <;> simp [List.length_take] <;> omega

/-- Positional description of the batch loop output: position `i` holds the
zero-vector when its batch (`n + i / bs`) failed, and the model embedding of
document `i` otherwise. -/
theorem genBatchesGo_getElem (encode : String → Vec) (fails : Nat → Bool)
    (bs : Nat) (hbs : 1 ≤ bs) :
    ∀ (k : Nat) (ds : List String), ds.length ≤ k → ∀ (n i : Nat), i < ds.length →
      (genBatchesGo encode fails bs n ds)[i]? =
        (ds[i]?).map (fun d => if fails (n + i / bs) then zeroVec else encode d) := by
  intro k
  induction k with
  | zero =>
    intro ds hk n i hi
    omega
  | succ k ih =>
    intro ds hk n i hi
    match ds with
    | [] => simp at hi
    | d :: ds' =>
      rw [genBatchesGo.eq_2]
      have hbatchlen : (if fails n then ((d :: ds').take bs).map (fun _ => zeroVec)
          else ((d :: ds').take bs).map encode).length = min bs (ds'.length + 1) := by
        cases hf : fails n <;>
          simp [List.length_take]
      by_cases hi2 : i < bs
      · have hdiv : i / bs = 0 := Nat.div_eq_of_lt hi2
        have hcond : i < (if fails n = true
            then ((d :: ds').take bs).map (fun _ => zeroVec)
            else ((d :: ds').take bs).map encode).length := by
          rw [hbatchlen]
          simp only [List.length_cons] at hi
          omega
        rw [List.getElem?_append, if_pos hcond]
        cases hf : fails n
        · rw [if_neg (by simp [hf]), List.getElem?_map, List.getElem?_take,
            if_pos hi2, List.getElem?_eq_getElem hi]
          simp [hdiv, hf]
        · rw [if_pos (by simp [hf]), List.getElem?_map, List.getElem?_take,
            if_pos hi2, List.getElem?_eq_getElem hi]
          simp [hdiv, hf]
      · have hle : bs ≤ i := Nat.le_of_not_lt hi2
        have hlen : i < ds'.length + 1 := by simpa using hi
        rw [List.getElem?_append_right (by rw [hbatchlen]; omega)]
        rw [hbatchlen, show min bs (ds'.length + 1) = bs from by omega]
        have hk' : (ds'.drop (bs - 1)).length ≤ k := by
          simp only [List.length_drop]
          simp at hk
          omega
        have hlt : i - bs < (ds'.drop (bs - 1)).length := by
          simp only [List.length_drop]
          omega
        rw [ih (ds'.drop (bs - 1)) hk' (n + 1) (i - bs) hlt]
        rw [List.getElem?_drop]
        have hidx : bs - 1 + (i - bs) = i - 1 := by omega
        rw [hidx]
        have hcons : (d :: ds')[i]? = ds'[i - 1]? := by
          rw [show i = (i - 1) + 1 from by omega, List.getElem?_cons_succ]
          simp
        rw [hcons]
        have hdiv : i / bs = (i - bs) / bs + 1 := by
          rw [show i = (i - bs) + bs from by omega, Nat.add_div_right _ hbs]
          simp
        rw [hdiv]
        have harith : n + 1 + (i - bs) / bs = n + ((i - bs) / bs + 1) := by omega
        rw [harith]

/-- Claim C4: a failing batch does not abort the build — exactly the documents
of the failed batch receive `np.zeros(384)` substitutes, the remaining batches
are encoded normally, and the output length always equals the number of input
documents. -/
theorem generateEmbeddingsBatch_fault_tolerant (encode : String → Vec)
    (fails : Nat → Bool) (documents : List String) (bs : Nat) (hbs : 1 ≤ bs) :
    (generateEmbeddingsBatch encode fails documents bs).length = documents.length ∧
    ∀ (i : Nat) (h : i < documents.length),
      (generateEmbeddingsBatch encode fails documents bs)[i]? =
        some (if fails (i / bs + 1) then zeroVec
              else encode (documents.get ⟨i, h⟩)) := by
  unfold generateEmbeddingsBatch
  by_cases hd : documents.isEmpty
  · rw [if_pos hd, List.isEmpty_iff.mp hd]
    exact ⟨rfl, fun i h => by simp at h⟩
  · rw [if_neg hd]
    constructor
    · exact genBatchesGo_length encode fails bs hbs documents.length documents
        (le_refl _) 1
    · intro i h
      rw [genBatchesGo_getElem encode fails bs hbs documents.length documents
        (le_refl _) 1 i h]
      rw [List.getElem?_eq_getElem h, Nat.add_comm 1 (i / bs)]
      rfl

/-- Witness for C4: three documents in batches of two, the second batch raising;
the third document gets the zero-vector. -/
theorem generateEmbeddingsBatch_fault_tolerant_witness :
    (generateEmbeddingsBatch (fun _ => [9]) (fun n => n == 2) ["a", "b", "c"] 2)[2]? =
      some zeroVec := by
  have h := (generateEmbeddingsBatch_fault_tolerant (fun _ => [9]) (fun n => n == 2)
    ["a", "b", "c"] 2 (by norm_num)).2 2 (by norm_num)
  simpa using h

/-! ## validate_embedding_quality (`build_docv2.py`, lines 1041-1123)

Embedding components may be NaN (`np.isnan`); a NaN component is modelled as
`none`, an ordinary float as `some q`.  `np.linalg.norm(v) < 1e-8` is modelled
exactly: for a NaN-free vector the comparison is equivalent to
`sum of squares < 1e-16`, and a vector containing a NaN has NaN norm, for which
the comparison is false.  The returned Python dict is an ordered key/value
list.  The magnitude summary statistics (`avg_magnitude`, `std_magnitude`)
need a real square root, are the subject of no claim, and are omitted from the
modelled report; the `try/except` wrapper is dead in this pure model. -/

/-- A value stored in the quality-report dict. -/
inductive MVal where
  | b : Bool → MVal
  | n : Nat → MVal
  | q : ℚ → MVal
  | s : String → MVal
deriving DecidableEq, Repr

/-- The quality report: the Python dict as an ordered key/value list. -/
abbrev Report := List (String × MVal)

/-- An embedding vector whose components may be NaN (`none`). -/
abbrev NVec := List (Option ℚ)

/-- `np.any(np.isnan(embedding))`. -/
def hasNaN (v : NVec) : Bool := v.any (fun c => c.isNone)

/-- Sum of squared components of a NaN-free vector. -/
def sumSq (v : NVec) : ℚ := (v.map (fun c => c.getD 0 * c.getD 0)).sum

/-- `np.linalg.norm(embedding) < 1e-8`, exactly on the rationals. -/
def isZeroVec (v : NVec) : Bool := !hasNaN v && decide (sumSq v < 1 / 10 ^ 16)

/-- Vectors whose length differs from the first vector's (`expected_dim`). -/
def dimensionMismatches (es : List NVec) : Nat :=
  (es.filter (fun v => v.length ≠ (es.headD []).length)).length

/-- Vectors containing a NaN component. -/
def nanCount (es : List NVec) : Nat := (es.filter hasNaN).length

/-- Near-zero vectors. -/
def zeroCount (es : List NVec) : Nat := (es.filter isZeroVec).length

/-- `consistency_issues = dimension_mismatches + nan + zero`. -/
def consistencyIssues (es : List NVec) : Nat :=
  dimensionMismatches es + nanCount es + zeroCount es

/-- `max(0.0, 1.0 - consistency_issues / len(embeddings))`. -/
def consistencyScore (es : List NVec) : ℚ :=
  max 0 (1 - (consistencyIssues es : ℚ) / es.length)

/-- The overall `valid` boolean (strict `<` against `len * 0.1`). -/
def validFlag (es : List NVec) : Bool :=
  decide (dimensionMismatches es = 0) && decide (nanCount es = 0) &&
    decide ((zeroCount es : ℚ) < (es.length : ℚ) * (1 / 10))

/-- `validate_embedding_quality`: early exit on empty input, otherwise the
metrics dict in insertion order. -/
def validateEmbeddingQuality (es : List NVec) (documents : List String)
    (embeddingType : String) : Report :=
  if es.isEmpty || documents.isEmpty then
    [("valid", .b false), ("error", .s "Empty embeddings or documents")]
  else
    [("valid", .b (validFlag es)),
     ("embedding_type", .s embeddingType),
     ("count", .n es.length),
     ("dimension", .n (es.headD []).length),
     ("zero_embeddings", .n (zeroCount es)),
     ("nan_embeddings", .n (nanCount es)),
     ("consistency_score", .q (consistencyScore es))]

/-- A filter count is nonzero exactly when a member satisfies the predicate. -/
theorem filter_length_ne_zero_iff {α : Type} (p : α → Bool) (l : List α) :
    (l.filter p).length ≠ 0 ↔ ∃ a ∈ l, p a := by
  rw [Ne, List.length_eq_zero, List.filter_eq_nil_iff]
  push_neg
  simp

/-- Claim C5 (amended): for a nonempty batch, `valid` is false exactly when some
vector's length differs from the first vector's, or some vector contains a NaN,
or the near-zero fraction is at least 10 percent (the code tests
`zero_count < 0.1 * n` strictly, so exactly 10 percent is already invalid);
the reported consistency score is `1 - defects/total` clamped below at 0, with
`defects` the sum of the three defect counts. -/
theorem validate_quality_valid_iff (es : List NVec) (documents : List String)
    (embeddingType : String) (hes : es ≠ []) (hdocs : documents ≠ []) :
    ((validateEmbeddingQuality es documents embeddingType).lookup "valid" =
        some (.b false) ↔
      (∃ v ∈ es, v.length ≠ (es.headD []).length) ∨
      (∃ v ∈ es, hasNaN v = true) ∨
      (1 / 10 ≤ (zeroCount es : ℚ) / es.length)) ∧
    (validateEmbeddingQuality es documents embeddingType).lookup
        "consistency_score" =
      some (.q (max 0 (1 -
        ((dimensionMismatches es + nanCount es + zeroCount es : ℕ) : ℚ) /
          es.length))) := by
  have hne : ¬ (es.isEmpty || documents.isEmpty) = true := by
    simp [List.isEmpty_iff, hes, hdocs]
  constructor
  · rw [validateEmbeddingQuality, if_neg hne]
    have hlk : ([("valid", MVal.b (validFlag es)),
        ("embedding_type", MVal.s embeddingType),
        ("count", MVal.n es.length),
        ("dimension", MVal.n (es.headD []).length),
        ("zero_embeddings", MVal.n (zeroCount es)),
        ("nan_embeddings", MVal.n (nanCount es)),
        ("consistency_score", MVal.q (consistencyScore es))] : Report).lookup
          "valid" = some (.b (validFlag es)) := rfl
    rw [hlk]
    have hlen : (0 : ℚ) < es.length := by
      have := List.length_pos.mpr hes
      exact_mod_cast this
    constructor
    · intro hfalse
      have hb : validFlag es = false := by
        injection hfalse with h1
        injection h1
      rw [validFlag] at hb
      simp only [Bool.and_eq_false_iff, decide_eq_false_iff_not] at hb
      rcases hb with (hmm | hnan) | hzero
      · exact Or.inl (by simpa using (filter_length_ne_zero_iff _ es).mp hmm)
      · exact Or.inr (Or.inl ((filter_length_ne_zero_iff hasNaN es).mp hnan))
      · refine Or.inr (Or.inr ?_)
        rw [le_div_iff₀ hlen]
        have := not_lt.mp hzero
        linarith
    · intro hcases
      have hb : validFlag es = false := by
        rw [validFlag]
        simp only [Bool.and_eq_false_iff, decide_eq_false_iff_not]
        rcases hcases with hmm | hnan | hzero
        · exact Or.inl (Or.inl ((filter_length_ne_zero_iff _ es).mpr
            (by simpa using hmm)))
        · exact Or.inl (Or.inr ((filter_length_ne_zero_iff hasNaN es).mpr hnan))
        · refine Or.inr (not_lt.mpr ?_)
          rw [le_div_iff₀ hlen] at hzero
          linarith
      rw [hb]
  · rw [validateEmbeddingQuality, if_neg hne]
    rfl

/-- Witness for the amended C5: the consistency-score field on a one-vector
batch. -/
theorem validate_quality_valid_iff_witness :
    (validateEmbeddingQuality [[some 1]] ["d"] "primary").lookup
        "consistency_score" =
      some (.q (max 0 (1 -
        ((dimensionMismatches [[some 1]] + nanCount [[some 1]] +
          zeroCount [[some 1]] : ℕ) : ℚ) / ([[some 1]] : List NVec).length))) :=
  (validate_quality_valid_iff [[some 1]] ["d"] "primary"
    (by simp) (by simp)).2

/-- Ten one-dimensional vectors, one of them the zero vector: exactly a 10
percent near-zero fraction. -/
def esBoundary : List NVec :=
  [[some 1], [some 1], [some 1], [some 1], [some 1],
   [some 1], [some 1], [some 1], [some 1], [some 0]]

/-- Counterexample to C5 as stated: with exactly 10 percent near-zero vectors
(a fraction that does not *exceed* 10 percent) and no dimension or NaN defect,
the code still reports `valid = false`, because it tests
`zero_count < 0.1 * n` strictly. -/
theorem validate_quality_boundary_counterexample :
    (validateEmbeddingQuality esBoundary ["d"] "primary").lookup "valid" =
      some (.b false) ∧
    ¬ ((∃ v ∈ esBoundary, v.length ≠ (esBoundary.headD []).length) ∨
       (∃ v ∈ esBoundary, hasNaN v = true) ∨
       ((zeroCount esBoundary : ℚ) / esBoundary.length > 1 / 10)) := by
  have hzc : zeroCount esBoundary = 1 := by
    rw [zeroCount, esBoundary]
    norm_num [List.filter, isZeroVec, hasNaN, sumSq]
  have hmm : dimensionMismatches esBoundary = 0 := by
    rw [dimensionMismatches, esBoundary]
    norm_num [List.filter]
  have hnan : nanCount esBoundary = 0 := by
    rw [nanCount, esBoundary]
    norm_num [List.filter, hasNaN]
  constructor
  · rw [validateEmbeddingQuality, if_neg (by rw [esBoundary]; simp)]
    have hvf : validFlag esBoundary = false := by
      rw [validFlag, hzc]
      have hlen : ((esBoundary.length : ℚ)) = 10 := by rw [esBoundary]; norm_num
      rw [hlen]
      norm_num
    rw [hvf]
    rfl
  · intro habs
    rcases habs with h | h | h
    · rcases h with ⟨v, hv, hlen⟩
      have : dimensionMismatches esBoundary ≠ 0 :=
        (filter_length_ne_zero_iff _ _).mpr ⟨v, hv, by simpa using hlen⟩
      exact this hmm
    · rcases h with ⟨v, hv, hnv⟩
      have : nanCount esBoundary ≠ 0 :=
        (filter_length_ne_zero_iff _ _).mpr ⟨v, hv, hnv⟩
      exact this hnan
    · rw [hzc] at h
      have hlen : ((esBoundary.length : ℚ)) = 10 := by rw [esBoundary]; norm_num
      rw [hlen] at h
      norm_num at h

/-- Claim C10: with an empty embeddings list or an empty documents list the
report is exactly `{valid: false, error: "Empty embeddings or documents"}`;
no numeric metric (count, dimension, consistency score) is present. -/
theorem validate_empty_report (es : List NVec) (documents : List String)
    (embeddingType : String) (h : es = [] ∨ documents = []) :
    validateEmbeddingQuality es documents embeddingType =
      [("valid", .b false), ("error", .s "Empty embeddings or documents")] ∧
    (validateEmbeddingQuality es documents embeddingType).lookup "count" = none ∧
    (validateEmbeddingQuality es documents embeddingType).lookup "dimension" =
      none ∧
    (validateEmbeddingQuality es documents embeddingType).lookup
      "consistency_score" = none := by
  have hcond : (es.isEmpty || documents.isEmpty) = true := by
    rcases h with h | h <;> simp [h]
  rw [validateEmbeddingQuality, if_pos hcond]
  exact ⟨rfl, rfl, rfl, rfl⟩

/-- Witness for C10 with an empty embeddings list. -/
theorem validate_empty_report_witness :
    validateEmbeddingQuality [] ["x"] "primary" =
      [("valid", .b false), ("error", .s "Empty embeddings or documents")] :=
  (validate_empty_report [] ["x"] "primary" (Or.inl rfl)).1

/-! ## Card records and shared string helpers

A `Card` models the dict rows consumed by `EnhancedDocumentProcessor` and
`calculate_complexity_score`: `card.get("text", "")` is a `String` with `""`
for a missing field, `card.get("power")`-style optional fields are `Option`,
`card.get("manaValue", 0)` is an exact rational, and list fields are lists.
String scanning (`in`, `str.count`) is modelled on character lists. -/

structure Card where
  name : String
  manaCost : String
  manaValue : ℚ
  type : String
  text : String
  power : Option String
  toughness : Option String
  loyalty : Option String
  keywords : List String
  colors : List String
deriving DecidableEq, Repr

/-- Is `pat` an initial segment of `s`? -/
def startsWith : List Char → List Char → Bool
  | [], _ => true
  | _ :: _, [] => false
  | p :: ps, c :: cs => p = c && startsWith ps cs

/-- Python `pat in s`: substring containment. -/
def containsSubL (pat : List Char) : List Char → Bool
  | [] => startsWith pat []
  | c :: cs => startsWith pat (c :: cs) || containsSubL pat cs

/-- Python `pat in s` on strings. -/
def containsSub (s pat : String) : Bool := containsSubL pat.toList s.toList

/-- Number of start positions of `s` at which `pat` occurs (for `pat ≠ ""`,
the number of possibly overlapping occurrences of `pat` in `s`). -/
def countOcc (pat : List Char) : List Char → Nat
  | [] => 0
  | c :: cs => (if startsWith pat (c :: cs) then 1 else 0) + countOcc pat cs

/-- Python `s.lower()` (ASCII case mapping). -/
def lowerStr (s : String) : String := String.mk (s.toList.map Char.toLower)

/-- Python `s.strip()`: drop whitespace from both ends. -/
def stripChars (s : List Char) : List Char :=
  ((s.dropWhile Char.isWhitespace).reverse.dropWhile Char.isWhitespace).reverse

/-- Worker for `splitWS`: `cur` is the reversed current word. -/
def splitWSGo (cur : List Char) : List Char → List String
  | [] => if cur = [] then [] else [String.mk cur.reverse]
  | c :: cs =>
    if c.isWhitespace then
      (if cur = [] then [] else [String.mk cur.reverse]) ++ splitWSGo [] cs
    else splitWSGo (c :: cur) cs

/-- Python `s.split()`: split on whitespace runs, dropping empty fragments. -/
def splitWords (s : String) : List String := splitWSGo [] s.toList

/-! ## calculate_complexity_score (`build_docv2.py`, lines 1216-1250) -/

/-- `complex_keywords` (line 1233). -/
def complexKeywords : List String :=
  ["when", "if", "choose", "may", "target", "search", "return"]

/-- `calculate_complexity_score`: capped contributions from mana value, rule
text length, complexity-signal words, keyword count and type-line word count,
with the sum capped at 1.0. -/
def calculate_complexity_score (card : Card) : ℚ :=
  let s₁ := min (card.manaValue / 10) (3 / 10)
  let s₂ := if card.text ≠ "" then
      min ((card.text.length : ℚ) / 500) (1 / 5) +
      min (((complexKeywords.filter
        (fun k => containsSub (lowerStr card.text) k)).length : ℚ) / 10) (1 / 5)
    else 0
  let s₃ := if card.keywords ≠ [] then
      min ((card.keywords.length : ℚ) / 10) (1 / 5)
    else 0
  let s₄ := if card.type ≠ "" then
      min (((splitWords card.type).length : ℚ) / 10) (1 / 10)
    else 0
  min (s₁ + s₂ + s₃ + s₄) 1

/-- Claim C9: for every card record (mana value is the nonnegative derived
numeric mana value; text length, keyword count and type length arbitrary) the
complexity score lies in `[0, 1]`. -/
theorem complexity_score_bounded (card : Card) (hmv : 0 ≤ card.manaValue) :
    0 ≤ calculate_complexity_score card ∧ calculate_complexity_score card ≤ 1 := by
  unfold calculate_complexity_score
  constructor
  · refine le_min ?_ (by norm_num)
    have h₁ : (0 : ℚ) ≤ min (card.manaValue / 10) (3 / 10) :=
      le_min (by positivity) (by norm_num)
    have h₂ : (0 : ℚ) ≤ (if card.text ≠ "" then
        min ((card.text.length : ℚ) / 500) (1 / 5) +
        min (((complexKeywords.filter
          (fun k => containsSub (lowerStr card.text) k)).length : ℚ) / 10) (1 / 5)
      else 0) := by
      split
      · have := le_min (show (0:ℚ) ≤ (card.text.length : ℚ) / 500 by positivity)
          (show (0:ℚ) ≤ 1/5 by norm_num)
        have := le_min (show (0:ℚ) ≤ ((complexKeywords.filter
          (fun k => containsSub (lowerStr card.text) k)).length : ℚ) / 10 by positivity)
          (show (0:ℚ) ≤ 1/5 by norm_num)
        positivity
      · exact le_refl 0
    have h₃ : (0 : ℚ) ≤ (if card.keywords ≠ [] then
        min ((card.keywords.length : ℚ) / 10) (1 / 5) else 0) := by
      split
      · exact le_min (by positivity) (by norm_num)
      · exact le_refl 0
    have h₄ : (0 : ℚ) ≤ (if card.type ≠ "" then
        min (((splitWords card.type).length : ℚ) / 10) (1 / 10) else 0) := by
      split
      · exact le_min (by positivity) (by norm_num)
      · exact le_refl 0
    linarith
  · exact min_le_right _ _

/-- Witness for C9 on a large, text-heavy card. -/
theorem complexity_score_bounded_witness :
    0 ≤ calculate_complexity_score
        ⟨"Emrakul", "\x7b15\x7d", 15, "Legendary Creature — Eldrazi",
          "When you cast this spell, you may search your library and choose a target.",
          some "15", some "15", none, ["Flying", "Protection", "Annihilator"], []⟩ ∧
      calculate_complexity_score
        ⟨"Emrakul", "\x7b15\x7d", 15, "Legendary Creature — Eldrazi",
          "When you cast this spell, you may search your library and choose a target.",
          some "15", some "15", none, ["Flying", "Protection", "Annihilator"], []⟩ ≤ 1 :=
  complexity_score_bounded _ (by norm_num)

/-! ## create_primary_document (`EnhancedDocumentProcessor`, lines 108-248,
339-379)

The `ability_expansions` table, mana-symbol conversion (`re.findall` over
brace groups), and the word-boundary case-insensitive keyword substitution of
`_expand_ability_keywords` (`re.sub(r"\b<kw>\b", ..., re.IGNORECASE)`) are
modelled on character lists.  `re` word characters are ASCII alphanumerics and
underscore here; every table keyword starts and ends with a letter, which the
boundary scanner exploits. -/

/-- `ability_expansions` (lines 122-137), in dict insertion order. -/
def abilityExpansions : List (String × String) := [
  ("flying",
    "Flying (This creature can\x27t be blocked except by creatures with flying or reach)"),
  ("trample",
    "Trample (This creature can deal excess combat damage to the player or planeswalker it\x27s attacking)"),
  ("vigilance", "Vigilance (Attacking doesn\x27t cause this creature to tap)"),
  ("lifelink",
    "Lifelink (Damage dealt by this creature also causes you to gain that much life)"),
  ("deathtouch",
    "Deathtouch (Any amount of damage this deals to a creature is enough to destroy it)"),
  ("haste",
    "Haste (This creature can attack and tap as soon as it comes under your control)"),
  ("reach", "Reach (This creature can block creatures with flying)"),
  ("first strike",
    "First strike (This creature deals combat damage before creatures without first strike)"),
  ("double strike",
    "Double strike (This creature deals first strike and regular combat damage)"),
  ("hexproof",
    "Hexproof (This creature can\x27t be the target of spells or abilities your opponents control)"),
  ("indestructible",
    "Indestructible (Effects that say \"destroy\" don\x27t destroy this creature)"),
  ("menace",
    "Menace (This creature can\x27t be blocked except by two or more creatures)"),
  ("defender", "Defender (This creature can\x27t attack)"),
  ("flash", "Flash (You may cast this spell any time you could cast an instant)")]

/-- `keyword_lower in self.ability_expansions` plus the table access. -/
def lookupExpansion (k : String) : Option String :=
  (abilityExpansions.find? (fun p => p.1 = k)).map Prod.snd

/-- `color_names` (lines 113-119). -/
def colorName (c : String) : String :=
  if c = "W" then "white"
  else if c = "U" then "blue"
  else if c = "B" then "black"
  else if c = "R" then "red"
  else if c = "G" then "green"
  else c

/-- `symbol in self.color_names`. -/
def isColorKey (c : String) : Bool :=
  c = "W" || c = "U" || c = "B" || c = "R" || c = "G"

/-- Scanner for `re.findall(r"\x7b([^\x7d]+)\x7d", s)`: when `cur = some acc`,
the scanner is inside a brace group with `acc` the reversed group so far; an
empty group is not a match and an unclosed group at the end matches nothing. -/
def braceGroupsGo (cur : Option (List Char)) : List Char → List (List Char)
  | [] => []
  | c :: rest =>
    match cur with
    | none =>
      if c = '\x7b' then braceGroupsGo (some []) rest
      else braceGroupsGo none rest
    | some acc =>
      if c = '\x7d' then
        (if acc = [] then [] else [acc.reverse]) ++ braceGroupsGo none rest
      else braceGroupsGo (some (c :: acc)) rest

/-- The brace-delimited symbol groups of a mana cost. -/
def braceGroups (s : String) : List (List Char) := braceGroupsGo none s.toList

/-- The per-symbol conversion of `_convert_mana_cost_to_text`. -/
def symbolToText (sym : String) : String :=
  if sym.toList ≠ [] ∧ sym.toList.all Char.isDigit then
    if sym = "0" then "zero"
    else if sym = "1" then "one"
    else sym ++ " generic"
  else if isColorKey sym then colorName sym
  else if sym = "X" then "X"
  else sym

/-- `_convert_mana_cost_to_text` (lines 339-363). -/
def convertManaCostToText (manaCost : String) : String :=
  if manaCost = "" then ""
  else
    let textParts := (braceGroups manaCost).map (fun g => symbolToText (String.mk g))
    if textParts ≠ [] then String.intercalate " " textParts ++ " mana"
    else manaCost

/-- `re` word characters (`\w`), ASCII. -/
def isWordChar (c : Char) : Bool := c.isAlphanum || c = '_'

/-- Case-insensitive prefix match of the keyword against the text. -/
def matchPrefixCI : List Char → List Char → Bool
  | [], _ => true
  | _ :: _, [] => false
  | p :: ps, c :: cs => p.toLower = c.toLower && matchPrefixCI ps cs

/-- Does `<kw>\b` match case-insensitively at the start of `s` — the keyword
matches and the character after it, if any, is not a word character?  (The
boundary before the keyword is the caller's `prevW` check.) -/
def wordMatchAt (kw s : List Char) : Bool :=
  matchPrefixCI kw s &&
    (match s.drop kw.length with
     | [] => true
     | d :: _ => !isWordChar d)

/-- One `re.sub(r"\b<kw>\b", exp, text, flags=re.IGNORECASE)` pass for a
keyword whose first and last characters are letters (true of every table
keyword): scan left to right; at a position whose previous character is not a
word character and where the keyword matches with a right boundary, emit the
expansion and resume after the matched region (the replacement text is not
rescanned); otherwise emit the character.  `prevW` records whether the
previous original character is a word character. -/
def replaceWordCI (kw exp : List Char) : Bool → List Char → List Char
  | _, [] => []
  | prevW, c :: cs =>
    if h : prevW = false ∧ kw ≠ [] ∧ wordMatchAt kw (c :: cs) then
      exp ++ replaceWordCI kw exp
        (match ((c :: cs).take kw.length).getLast? with
         | some l => isWordChar l
         | none => prevW)
        ((c :: cs).drop kw.length)
    else c :: replaceWordCI kw exp (isWordChar c) cs
termination_by _ s => s.length
decreasing_by
· have hk : 0 < kw.length := List.length_pos.mpr h.2.1
  simp only [List.length_drop, List.length_cons]
  omega
· simp only [List.length_cons]
  omega

/-- `_expand_ability_keywords` (lines 365-379): substitute every table keyword
in dict order (the guarding `re.search` is redundant, as a sub with no match is
the identity). -/
def expandAbilityKeywords (text : String) : String :=
  if text = "" then ""
  else String.mk (abilityExpansions.foldl
    (fun acc p => replaceWordCI p.1.toList p.2.toList false acc) text.toList)

/-- The direct keyword expansion of the keywords-only branch (and of the
no-oracle-text branch): each keyword is replaced by its table expansion when
its lower-case form is in the table and kept verbatim otherwise. -/
def expandKeywordList (ks : List String) : List String :=
  ks.map (fun k => (lookupExpansion (lowerStr k)).getD k)

/-- `oracle_text.lower().replace(",", "").replace(".", "").strip()`. -/
def oracleLower (t : String) : String :=
  String.mk (stripChars (((lowerStr t).toList.filter (fun c => c ≠ ','))|>.filter
    (fun c => c ≠ '.')))

/-- The oracle-text block of `create_primary_document` (lines 182-237): the
keywords-only branch expands the card's keywords directly; the general branch
substring-expands the rule text and then appends the expansions of keywords not
textually present in it; with no rule text, the keywords are expanded
directly. -/
def oracleBlock (card : Card) : List String :=
  if card.text ≠ "" then
    if oracleLower card.text ≠ "" ∧
        ∀ w ∈ splitWords (oracleLower card.text), w ∈ card.keywords.map lowerStr then
      if card.keywords ≠ [] then
        [String.intercalate " " (expandKeywordList card.keywords)]
      else []
    else
      [expandAbilityKeywords card.text] ++
      (if card.keywords ≠ [] then
        (let additional := (card.keywords.filter
            (fun k => !containsSub (lowerStr card.text) (lowerStr k))).map
            (fun k => (lookupExpansion (lowerStr k)).getD k)
         if additional ≠ [] then [String.intercalate " " additional] else [])
       else [])
  else
    if card.keywords ≠ [] then
      [String.intercalate " " (expandKeywordList card.keywords)]
    else []

/-- Power/toughness sentence (lines 173-176). -/
def powerToughnessParts (card : Card) : List String :=
  match card.power, card.toughness with
  | some p, some t => ["with " ++ p ++ " power and " ++ t ++ " toughness"]
  | _, _ => []

/-- Loyalty sentence (lines 179-180). -/
def loyaltyParts (card : Card) : List String :=
  match card.loyalty with
  | some l => ["starting loyalty " ++ l]
  | none => []

/-- Colour sentence (lines 240-246). -/
def colorParts (card : Card) : List String :=
  if card.colors ≠ [] then
    match card.colors.map colorName with
    | [] => []
    | [w] => ["is " ++ w]
    | w :: ws => ["is " ++ String.intercalate " and " (w :: ws)]
  else []

/-- `create_primary_document` (lines 152-248): the `parts` list joined with
single spaces. -/
def create_primary_document (card : Card) : String :=
  String.intercalate " "
    ((if card.name ≠ "" then [card.name] else []) ++
     (if card.manaCost ≠ "" then
        ["costs " ++ convertManaCostToText card.manaCost] else []) ++
     (if card.type ≠ "" then ["is a " ++ lowerStr card.type] else []) ++
     powerToughnessParts card ++ loyaltyParts card ++ oracleBlock card ++
     colorParts card)

set_option maxRecDepth 16384 in
/-- Claim C8: when the cleaned lower-cased rule text is nonempty and consists
solely of tokens of the card's keyword list, the primary view takes the direct
expansion branch — the oracle block is exactly the joined per-keyword table
expansions, produced without the substring scan and without the
append-missing-keywords step; and on the spec's example (a card whose rule
text is exactly "Flying" with keyword list ["Flying"]) the flying reminder
text occurs exactly once in the full primary document. -/
theorem primary_keyword_expansion_once :
    (∀ card : Card, card.text ≠ "" → oracleLower card.text ≠ "" →
      (∀ w ∈ splitWords (oracleLower card.text), w ∈ card.keywords.map lowerStr) →
      card.keywords ≠ [] →
      oracleBlock card = [String.intercalate " " (expandKeywordList card.keywords)]) ∧
    countOcc
      ("Flying (This creature can\x27t be blocked except by creatures with flying or reach)").toList
      (create_primary_document
        ⟨"Storm Crow", "\x7b1\x7d\x7bU\x7d", 2, "Creature — Bird", "Flying",
          some "1", some "2", none, ["Flying"], ["U"]⟩).toList = 1 := by
  constructor
  · intro card ht hol hwords hkw
    rw [oracleBlock, if_pos ht, if_pos ⟨hol, hwords⟩, if_pos hkw]
  · decide

/-- Witness for C8: the Storm Crow oracle block is the direct flying
expansion. -/
theorem primary_keyword_expansion_once_witness :
    oracleBlock
        ⟨"Storm Crow", "\x7b1\x7d\x7bU\x7d", 2, "Creature — Bird", "Flying",
          some "1", some "2", none, ["Flying"], ["U"]⟩ =
      [String.intercalate " " (expandKeywordList ["Flying"])] :=
  primary_keyword_expansion_once.1
    ⟨"Storm Crow", "\x7b1\x7d\x7bU\x7d", 2, "Creature — Bird", "Flying",
      some "1", some "2", none, ["Flying"], ["U"]⟩
    (by decide) (by decide) (by decide) (by decide)

end DesktopMtg
